import Mathlib

/-!
Shallow embedding of the booktoki crawler and paginator (src/booktoki.py).

Python strings are modelled as lists of characters (PyStr).  Pixel widths
returned by the font measurement function are modelled as rationals supplied
through an abstract measure parameter.  The browser environment of the
Cloudflare-bypass navigator is modelled as a sequence of poll observations.
-/

namespace BookToki

/-- A Python string, modelled as its sequence of characters. -/
abbrev PyStr := List Char

/-- The ASCII whitespace characters recognised by the Python str methods
strip, rstrip and split used in the source (space, tab, LF, CR, VT, FF). -/
def pyIsSpace (c : Char) : Bool :=
  c = ' ' || c = '\t' || c = '\n' || c = '\r' || c = '\x0b' || c = '\x0c'

/-- Python str.rstrip with no argument: drop trailing whitespace. -/
def pyRStrip (s : PyStr) : PyStr :=
  (s.reverse.dropWhile pyIsSpace).reverse

/-- The test `not line.strip()` from the source: a string is blank when all
of its characters are whitespace (this includes the empty string). -/
def pyIsBlank (s : PyStr) : Bool :=
  s.all pyIsSpace

/-- The nine characters of the character class in the regular expression
of BookTokiCrawler.sanitize_filename, line 433 of the source. -/
def illegalFilenameChars : List Char :=
  ['\\', '/', ':', '*', '?', '"', '<', '>', '|']

/-- BookTokiCrawler.sanitize_filename (line 432): re.sub over a single
character class replaces each matching character by an underscore and
keeps every other character. -/
def sanitize_filename (name : PyStr) : PyStr :=
  name.map fun c => if c ∈ illegalFilenameChars then '_' else c

/-- Python str.splitlines restricted to LF line boundaries, which are the
only boundaries produced by the pipeline feeding format_text_for_readability:
no element for the empty string, and no trailing empty element when the
string ends with a newline. -/
def pySplitLines (s : PyStr) : List PyStr :=
  if s = [] then []
  else if s.getLast? = some '\n' then (s.splitOn '\n').dropLast
  else s.splitOn '\n'

/-- Fuel-indexed form of the inner while loop of
format_text_for_readability (lines 541 to 544): while the line is longer
than max_line_length, emit the first max_line_length characters and
continue with the rest, then emit the rest.  The fuel only bounds the
number of iterations so that the recursion is structural; with fuel at
least the length of the line it never runs out, because each iteration
removes mll times at least one character.  For mll = 0 the source loop does
not terminate, so the guard also requires 0 < mll and all theorems assume
0 < mll. -/
def hardChunksGo (mll : Nat) : Nat → PyStr → List PyStr
  | 0, line => [line]
  | fuel + 1, line =>
    if mll < line.length ∧ 0 < mll then
      line.take mll :: hardChunksGo mll fuel (line.drop mll)
    else
      [line]

/-- The inner while loop of format_text_for_readability, started with
enough fuel for its input. -/
def hardChunks (mll : Nat) (line : PyStr) : List PyStr :=
  hardChunksGo mll line.length line

/-- The for loop of format_text_for_readability (lines 532 to 544): rstrip
each line; a blank line increments the blank counter and is emitted as an
empty line only while the counter is at most one; a non-blank line resets
the counter and is emitted hard-wrapped at max_line_length. -/
def formatLinesGo (mll : Nat) : Nat → List PyStr → List PyStr
  | _, [] => []
  | blankCount, l :: rest =>
    let line := pyRStrip l
    if pyIsBlank line then
      (if blankCount + 1 ≤ 1 then [([] : PyStr)] else []) ++
        formatLinesGo mll (blankCount + 1) rest
    else
      hardChunks mll line ++ formatLinesGo mll 0 rest

/-- BookTokiCrawler.format_text_for_readability (lines 528 to 546):
split the text into lines, collapse runs of blank lines to one, hard-wrap
long lines at max_line_length, and join the result with newlines. -/
def format_text_for_readability (text : PyStr) (mll : Nat := 80) : PyStr :=
  ['\n'].intercalate (formatLinesGo mll 0 (pySplitLines text))

theorem sanitize_filename_length (name : PyStr) :
    (sanitize_filename name).length = name.length := by
  simp [sanitize_filename]

/-- C6: sanitize_filename replaces each occurrence of each of the nine
characters backslash / : * ? quote < > | with a single underscore, leaves
every other character unchanged, and preserves the order and count of all
characters (same length, pointwise image). -/
theorem c6_sanitize_filename_pointwise (name : PyStr) :
    (sanitize_filename name).length = name.length ∧
    ∀ i : Fin name.length,
      (sanitize_filename name).get ⟨i, by simp [sanitize_filename]⟩ =
        (if name.get i ∈ illegalFilenameChars then '_' else name.get i) := by
  refine ⟨sanitize_filename_length name, ?_⟩
  intro i
  simp [sanitize_filename]

theorem hardChunksGo_ne_nil (mll fuel : Nat) (line : PyStr) :
    hardChunksGo mll fuel line ≠ [] := by
  cases fuel with
  | zero => simp [hardChunksGo]
  | succ fuel =>
    rw [hardChunksGo]
    split <;> simp

theorem hardChunks_ne_nil (mll : Nat) (line : PyStr) : hardChunks mll line ≠ [] :=
  hardChunksGo_ne_nil mll line.length line

theorem hardChunksGo_length_le (mll : Nat) (hm : 0 < mll) :
    ∀ (fuel : Nat) (line : PyStr), line.length ≤ fuel →
      ∀ c ∈ hardChunksGo mll fuel line, c.length ≤ mll := by
  intro fuel
  induction fuel with
  | zero =>
    intro line hlen c hc
    simp only [hardChunksGo, List.mem_singleton] at hc
    subst hc
    omega
  | succ fuel ih =>
    intro line hlen c hc
    rw [hardChunksGo] at hc
    split at hc
    · rename_i hcond
      rcases List.mem_cons.mp hc with rfl | hc
      · simp
      · refine ih (line.drop mll) ?_ c hc
        simp only [List.length_drop]
        omega
    · rename_i hcond
      rcases List.mem_singleton.mp hc with rfl
      omega

theorem hardChunks_length_le (mll : Nat) (line : PyStr) (hm : 0 < mll) :
    ∀ c ∈ hardChunks mll line, c.length ≤ mll :=
  hardChunksGo_length_le mll hm line.length line le_rfl

theorem hardChunksGo_mem_ne_nil (mll : Nat) (hm : 0 < mll) :
    ∀ (fuel : Nat) (line : PyStr), line ≠ [] →
      ∀ c ∈ hardChunksGo mll fuel line, c ≠ [] := by
  intro fuel
  induction fuel with
  | zero =>
    intro line hl c hc
    simp only [hardChunksGo, List.mem_singleton] at hc
    subst hc
    exact hl
  | succ fuel ih =>
    intro line hl c hc
    rw [hardChunksGo] at hc
    split at hc
    · rename_i hcond
      rcases List.mem_cons.mp hc with rfl | hc
      · simp only [ne_eq, List.take_eq_nil_iff]
        push_neg
        refine ⟨by omega, hl⟩
      · refine ih (line.drop mll) ?_ c hc
        simp only [ne_eq, List.drop_eq_nil_iff]
        omega
    · rcases List.mem_singleton.mp hc with rfl
      exact hl

theorem hardChunks_mem_ne_nil (mll : Nat) (line : PyStr) (hm : 0 < mll)
    (hl : line ≠ []) : ∀ c ∈ hardChunks mll line, c ≠ [] :=
  hardChunksGo_mem_ne_nil mll hm line.length line hl

/-- A list without empty elements never has two adjacent empty elements. -/
theorem chain_of_mem_ne_nil (cs : List PyStr) (h : ∀ c ∈ cs, c ≠ ([] : PyStr)) :
    List.Chain' (fun a b => ¬(a = ([] : PyStr) ∧ b = ([] : PyStr))) cs := by
  induction cs with
  | nil => simp
  | cons c cs ih =>
    rw [List.chain'_cons']
    refine ⟨?_, ih fun x hx => h x (List.mem_cons_of_mem _ hx)⟩
    intro b _ hb
    exact h c (List.mem_cons_self c cs) hb.1

/-- Loop invariant for formatLinesGo: all emitted lines are bounded by
max_line_length, no two adjacent emitted lines are both blank, and when the
blank counter is already positive the next emitted line is not blank. -/
theorem formatLinesGo_spec (mll : Nat) (hm : 0 < mll) (ls : List PyStr) :
    ∀ bc : Nat,
      (∀ c ∈ formatLinesGo mll bc ls, c.length ≤ mll) ∧
      List.Chain' (fun a b => ¬(a = ([] : PyStr) ∧ b = ([] : PyStr)))
        (formatLinesGo mll bc ls) ∧
      (1 ≤ bc → ∀ c ∈ (formatLinesGo mll bc ls).head?, c ≠ ([] : PyStr)) := by
  induction ls with
  | nil => intro bc; simp [formatLinesGo]
  | cons l rest ih =>
    intro bc
    by_cases hb : pyIsBlank (pyRStrip l) = true
    · by_cases hbc : bc + 1 ≤ 1
      · have hbc0 : bc = 0 := by omega
        subst hbc0
        have heq : formatLinesGo mll 0 (l :: rest) =
            ([] : PyStr) :: formatLinesGo mll 1 rest := by
          simp [formatLinesGo, hb]
        obtain ⟨ih1, ih2, ih3⟩ := ih 1
        refine ⟨?_, ?_, ?_⟩
        · intro c hc
          rw [heq] at hc
          rcases List.mem_cons.mp hc with rfl | hc
          · simp
          · exact ih1 c hc
        · rw [heq, List.chain'_cons']
          exact ⟨fun b hb2 => by simpa using ih3 le_rfl b hb2, ih2⟩
        · omega
      · have heq : formatLinesGo mll bc (l :: rest) =
            formatLinesGo mll (bc + 1) rest := by
          simp only [formatLinesGo, hb, if_pos, if_neg hbc]
          simp
        obtain ⟨ih1, ih2, ih3⟩ := ih (bc + 1)
        rw [heq]
        exact ⟨ih1, ih2, fun _ => ih3 (by omega)⟩
    · have hl : pyRStrip l ≠ [] := by
        intro hnil
        rw [hnil] at hb
        simp [pyIsBlank] at hb
      have heq : formatLinesGo mll bc (l :: rest) =
          hardChunks mll (pyRStrip l) ++ formatLinesGo mll 0 rest := by
        simp [formatLinesGo, hb]
      obtain ⟨ih1, ih2, ih3⟩ := ih 0
      have hchunkne := hardChunks_mem_ne_nil mll (pyRStrip l) hm hl
      refine ⟨?_, ?_, ?_⟩
      · intro c hc
        rw [heq] at hc
        rcases List.mem_append.mp hc with hc | hc
        · exact hardChunks_length_le mll (pyRStrip l) hm c hc
        · exact ih1 c hc
      · rw [heq, List.chain'_append]
        refine ⟨chain_of_mem_ne_nil _ hchunkne, ih2, ?_⟩
        intro x hx y _ hxy
        exact hchunkne x (List.mem_of_mem_getLast? hx) hxy.1
      · intro _ c hc
        rw [heq] at hc
        rcases hne : hardChunks mll (pyRStrip l) with _ | ⟨c0, cs0⟩
        · exact absurd hne (hardChunks_ne_nil mll (pyRStrip l))
        · rw [hne] at hc
          simp only [List.cons_append, List.head?_cons, Option.mem_some_iff] at hc
          subst hc
          exact hchunkne c0 (by rw [hne]; exact List.mem_cons_self _ _)

/-- C3: for every input text and every positive max_line_length, the output
of format_text_for_readability is the newline join of a line list in which
no two adjacent lines are both blank and every line has at most
max_line_length characters.  The source loop does not terminate when
max_line_length = 0, so the model and the theorem assume 0 < mll. -/
theorem c3_format_text_bounded_no_double_blank (text : PyStr) (mll : Nat)
    (hm : 0 < mll) :
    format_text_for_readability text mll =
      ['\n'].intercalate (formatLinesGo mll 0 (pySplitLines text)) ∧
    (∀ l ∈ formatLinesGo mll 0 (pySplitLines text), l.length ≤ mll) ∧
    List.Chain' (fun a b => ¬(a = ([] : PyStr) ∧ b = ([] : PyStr)))
      (formatLinesGo mll 0 (pySplitLines text)) := by
  obtain ⟨h1, h2, _⟩ := formatLinesGo_spec mll hm (pySplitLines text) 0
  exact ⟨rfl, h1, h2⟩

/-- Witness for C3 at a concrete input: the text made of the line AAA, two
blank lines and the line BB, with max_line_length 2, yields the lines
AA, A, one blank, B and B with the claimed properties. -/
theorem c3_format_text_bounded_no_double_blank_witness :
    (0 < 2 ∧
      format_text_for_readability ['A', 'A', 'A', '\n', '\n', '\n', 'B', 'B'] 2 =
        ['\n'].intercalate
          (formatLinesGo 2 0 (pySplitLines ['A', 'A', 'A', '\n', '\n', '\n', 'B', 'B'])) ∧
      (∀ l ∈ formatLinesGo 2 0 (pySplitLines ['A', 'A', 'A', '\n', '\n', '\n', 'B', 'B']),
        l.length ≤ 2) ∧
      List.Chain' (fun a b => ¬(a = ([] : PyStr) ∧ b = ([] : PyStr)))
        (formatLinesGo 2 0 (pySplitLines ['A', 'A', 'A', '\n', '\n', '\n', 'B', 'B']))) := by
  exact ⟨by decide,
    c3_format_text_bounded_no_double_blank ['A', 'A', 'A', '\n', '\n', '\n', 'B', 'B'] 2
      (by decide)⟩

/-- C9: the scenario text of ninety A characters, a newline and one B,
formatted with max_line_length 80, produces the line of eighty A
characters, then the line of ten A characters, then the line B. -/
theorem c9_scenario_ninety_a :
    format_text_for_readability (List.replicate 90 'A' ++ ['\n', 'B']) 80 =
      List.replicate 80 'A' ++ '\n' :: (List.replicate 10 'A' ++ ['\n', 'B']) := by
  decide

/-- The for loop of NovelImageConverter.split_into_pages (lines 803 to
817): when the current page is already full it is flushed, joined with
newlines; each line is then appended to the current page; a nonempty final
page is flushed at the end. -/
def split_into_pages_go (lpp : Nat) : List PyStr → List PyStr → List PyStr
  | cur, [] => if cur = [] then [] else [['\n'].intercalate cur]
  | cur, l :: rest =>
    if lpp ≤ cur.length then
      ['\n'].intercalate cur :: split_into_pages_go lpp [l] rest
    else
      split_into_pages_go lpp (cur ++ [l]) rest

/-- NovelImageConverter.split_into_pages: group the wrapped lines into
newline-joined page strings of at most lines_per_page lines each. -/
def split_into_pages (lpp : Nat) (lines : List PyStr) : List PyStr :=
  split_into_pages_go lpp [] lines

/-- The same grouping as split_into_pages_go, with each page kept as its
list of lines instead of being joined with newlines. -/
def splitPagesLL (lpp : Nat) : List PyStr → List PyStr → List (List PyStr)
  | cur, [] => if cur = [] then [] else [cur]
  | cur, l :: rest =>
    if lpp ≤ cur.length then
      cur :: splitPagesLL lpp [l] rest
    else
      splitPagesLL lpp (cur ++ [l]) rest

theorem split_into_pages_go_eq_map (lpp : Nat) :
    ∀ (ls : List PyStr) (cur : List PyStr),
      split_into_pages_go lpp cur ls =
        (splitPagesLL lpp cur ls).map (fun q => ['\n'].intercalate q) := by
  intro ls
  induction ls with
  | nil =>
    intro cur
    by_cases h : cur = [] <;> simp [split_into_pages_go, splitPagesLL, h]
  | cons l rest ih =>
    intro cur
    by_cases h : lpp ≤ cur.length <;>
      simp [split_into_pages_go, splitPagesLL, h, ih]

theorem splitPagesLL_flatten (lpp : Nat) :
    ∀ (ls : List PyStr) (cur : List PyStr),
      (splitPagesLL lpp cur ls).flatten = cur ++ ls := by
  intro ls
  induction ls with
  | nil =>
    intro cur
    by_cases h : cur = [] <;> simp [splitPagesLL, h]
  | cons l rest ih =>
    intro cur
    by_cases h : lpp ≤ cur.length <;> simp [splitPagesLL, h, ih]

theorem splitPagesLL_mem (lpp : Nat) (hlpp : 0 < lpp) :
    ∀ (ls : List PyStr) (cur : List PyStr), cur.length ≤ lpp →
      ∀ p ∈ splitPagesLL lpp cur ls, p.length ≤ lpp ∧ p ≠ [] := by
  intro ls
  induction ls with
  | nil =>
    intro cur hcur p hp
    by_cases h : cur = []
    · simp [splitPagesLL, h] at hp
    · simp only [splitPagesLL, if_neg h, List.mem_singleton] at hp
      subst hp
      exact ⟨hcur, h⟩
  | cons l rest ih =>
    intro cur hcur p hp
    by_cases h : lpp ≤ cur.length
    · simp only [splitPagesLL, if_pos h] at hp
      rcases List.mem_cons.mp hp with rfl | hp
      · refine ⟨hcur, ?_⟩
        intro hnil
        rw [hnil] at h
        simp at h
        omega
      · exact ih [l] (by simpa using hlpp) p hp
    · simp only [splitPagesLL, if_neg h] at hp
      refine ih (cur ++ [l]) ?_ p hp
      simp only [List.length_append, List.length_singleton]
      omega

/-- Every line of every page produced by splitPagesLL is one of the input
lines (when started with an empty current page). -/
theorem splitPagesLL_line_mem (lpp : Nat) (ls : List PyStr) (p : List PyStr)
    (hp : p ∈ splitPagesLL lpp [] ls) : ∀ x ∈ p, x ∈ ls := by
  intro x hx
  have : x ∈ (splitPagesLL lpp [] ls).flatten := List.mem_flatten.mpr ⟨p, hp, hx⟩
  rw [splitPagesLL_flatten lpp ls []] at this
  simpa using this

/-- C2: for every positive lines_per_page and every list of wrapped lines
containing no embedded newline, each page returned by split_into_pages
splits back on newline into at most lines_per_page lines, and splitting
every page back on newline and concatenating in order reproduces the input
line sequence exactly. -/
theorem c2_split_into_pages_bounded_lossless (lpp : Nat) (lines : List PyStr)
    (hlpp : 0 < lpp) (hnl : ∀ l ∈ lines, '\n' ∉ l) :
    (∀ p ∈ split_into_pages lpp lines, (p.splitOn '\n').length ≤ lpp) ∧
    ((split_into_pages lpp lines).map (fun p => p.splitOn '\n')).flatten = lines := by
  have hmap := split_into_pages_go_eq_map lpp lines []
  have hsplit : ∀ q ∈ splitPagesLL lpp [] lines,
      (['\n'].intercalate q).splitOn '\n' = q := by
    intro q hq
    refine List.splitOn_intercalate q '\n' ?_ ?_
    · intro l hl
      exact hnl l (splitPagesLL_line_mem lpp lines q hq l hl)
    · exact (splitPagesLL_mem lpp hlpp lines [] (by simp [Nat.le_of_lt hlpp]) q hq).2
  constructor
  · intro p hp
    rw [split_into_pages, hmap] at hp
    rcases List.mem_map.mp hp with ⟨q, hq, rfl⟩
    rw [hsplit q hq]
    exact (splitPagesLL_mem lpp hlpp lines [] (by simp [Nat.le_of_lt hlpp]) q hq).1
  · rw [split_into_pages, hmap, List.map_map]
    have : ((splitPagesLL lpp [] lines).map
        ((fun p => p.splitOn '\n') ∘ fun q => ['\n'].intercalate q)) =
        (splitPagesLL lpp [] lines).map id := by
      refine List.map_congr_left ?_
      intro q hq
      simp [Function.comp, hsplit q hq]
    rw [this, List.map_id]
    exact splitPagesLL_flatten lpp lines []

/-- Witness for C2: three one-character lines with lines_per_page 2 give
pages of at most two lines whose newline splits concatenate back to the
input. -/
theorem c2_split_into_pages_bounded_lossless_witness :
    (∀ p ∈ split_into_pages 2 [['a'], ['b'], ['c']], (p.splitOn '\n').length ≤ 2) ∧
    ((split_into_pages 2 [['a'], ['b'], ['c']]).map (fun p => p.splitOn '\n')).flatten =
      [['a'], ['b'], ['c']] :=
  c2_split_into_pages_bounded_lossless 2 [['a'], ['b'], ['c']] (by decide) (by decide)

/-- Grouping a list into consecutive chunks of lpp elements, used as the
take-drop description of splitPagesLL. -/
def chunksOf (lpp : Nat) (ls : List PyStr) : List (List PyStr) :=
  if h : 0 < lpp ∧ ls ≠ [] then
    ls.take lpp :: chunksOf lpp (ls.drop lpp)
  else
    []
termination_by ls.length
decreasing_by
  have := List.length_pos.mpr h.2
  simp only [List.length_drop]
  omega

theorem splitPagesLL_eq_chunksOf (lpp : Nat) (hlpp : 0 < lpp) :
    ∀ (ls : List PyStr) (cur : List PyStr), cur.length ≤ lpp →
      splitPagesLL lpp cur ls = chunksOf lpp (cur ++ ls) := by
  intro ls
  induction ls with
  | nil =>
    intro cur hcur
    by_cases h : cur = []
    · simp [splitPagesLL, chunksOf, h]
    · rw [chunksOf, dif_pos ⟨hlpp, by simpa using h⟩]
      have htake : (cur ++ ([] : List PyStr)).take lpp = cur := by
        simp [List.take_of_length_le hcur]
      have hdrop : (cur ++ ([] : List PyStr)).drop lpp = [] := by
        simp [List.drop_of_length_le hcur]
      rw [htake, hdrop, chunksOf]
      simp [splitPagesLL, h]
  | cons l rest ih =>
    intro cur hcur
    by_cases h : lpp ≤ cur.length
    · have hcl : cur.length = lpp := Nat.le_antisymm hcur h
      have hne : cur ++ l :: rest ≠ [] := by simp
      rw [chunksOf, dif_pos ⟨hlpp, hne⟩]
      have htake : (cur ++ l :: rest).take lpp = cur := by
        rw [List.take_append_of_le_length (by omega), List.take_of_length_le (by omega)]
      have hdrop : (cur ++ l :: rest).drop lpp = l :: rest := by
        rw [List.drop_append_of_le_length (by omega), List.drop_of_length_le (by omega)]
        simp
      rw [htake, hdrop]
      have := ih [l] (by simpa using hlpp)
      simp only [splitPagesLL, if_pos h]
      rw [this]
      simp
    · simp only [splitPagesLL, if_neg h]
      have := ih (cur ++ [l]) (by simp; omega)
      rw [this]
      simp

theorem chunksOf_length (lpp : Nat) (hlpp : 0 < lpp) :
    ∀ (n : Nat) (ls : List PyStr), ls.length ≤ n →
      (chunksOf lpp ls).length = (ls.length + lpp - 1) / lpp := by
  have hznil : chunksOf lpp [] = [] := by
    rw [chunksOf]
    simp
  intro n
  induction n with
  | zero =>
    intro ls hn
    have hnil : ls = [] := List.eq_nil_of_length_eq_zero (by omega)
    subst hnil
    rw [hznil]
    simp only [List.length_nil, Nat.zero_add]
    exact (Nat.div_eq_of_lt (by omega)).symm
  | succ n ih =>
    intro ls hn
    by_cases hne : ls = []
    · subst hne
      rw [hznil]
      simp only [List.length_nil, Nat.zero_add]
      exact (Nat.div_eq_of_lt (by omega)).symm
    · rw [chunksOf, dif_pos ⟨hlpp, hne⟩]
      have hpos : 0 < ls.length := List.length_pos.mpr hne
      have hdl : (ls.drop lpp).length = ls.length - lpp := by simp
      have hrec := ih (ls.drop lpp) (by omega)
      rw [List.length_cons, hrec, hdl]
      by_cases hle : ls.length ≤ lpp
      · have h1 : (ls.length - lpp + lpp - 1) / lpp = 0 :=
          Nat.div_eq_of_lt (by omega)
        have h2 : (ls.length + lpp - 1) / lpp = 1 :=
          Nat.div_eq_of_lt_le (by omega) (by omega)
        omega
      · have hgt : lpp < ls.length := by omega
        have he1 : ls.length - lpp + lpp - 1 = ls.length - 1 := by omega
        rw [he1]
        have he2 : ls.length + lpp - 1 = (ls.length - 1) + lpp := by omega
        rw [he2, Nat.add_div_right _ hlpp]

/-- Fuel-indexed decimal rendering of a natural number, mirroring the
digit sequence printed by the Python format specifier d; the fuel only
makes the recursion structural and never runs out when it is at least the
number being rendered. -/
def decDigitsGo : Nat → Nat → PyStr
  | 0, n => [Nat.digitChar n]
  | fuel + 1, n =>
    if n < 10 then [Nat.digitChar n]
    else decDigitsGo fuel (n / 10) ++ [Nat.digitChar (n % 10)]

/-- Decimal rendering of a natural number. -/
def decDigits (n : Nat) : PyStr :=
  decDigitsGo n n

/-- The Python format specifier 03d used in process_file (line 875):
decimal rendering left padded with zeros to width three. -/
def pyFormat03d (n : Nat) : PyStr :=
  List.replicate (3 - (decDigits n).length) '0' ++ decDigits n

/-- The file name built for page number k in process_file (line 875):
basename, underscore, p, the zero padded page number and the jpg
extension. -/
def pageImageName (basename : PyStr) (k : Nat) : PyStr :=
  basename ++ ['_', 'p'] ++ pyFormat03d k ++ ['.', 'j', 'p', 'g']

/-- The image file names emitted by the loop of process_file (lines 874 to
876): one name per page, numbered consecutively from one. -/
def page_image_names (basename : PyStr) (pages : List PyStr) : List PyStr :=
  (List.range pages.length).map fun i => pageImageName basename (i + 1)

theorem decDigitsGo_length (fuel : Nat) :
    ∀ n : Nat, n ≤ fuel →
      (n < 10 → (decDigitsGo fuel n).length = 1) ∧
      (n < 100 → (decDigitsGo fuel n).length ≤ 2) ∧
      (n < 1000 → (decDigitsGo fuel n).length ≤ 3) := by
  induction fuel with
  | zero =>
    intro n hn
    have : n = 0 := by omega
    subst this
    simp [decDigitsGo]
  | succ fuel ih =>
    intro n hn
    by_cases h10 : n < 10
    · simp [decDigitsGo, h10]
    · have hdiv : n / 10 ≤ fuel := by omega
      obtain ⟨ih1, ih2, _⟩ := ih (n / 10) hdiv
      rw [decDigitsGo, if_neg h10]
      refine ⟨by omega, ?_, ?_⟩
      · intro h100
        have : n / 10 < 10 := by omega
        simp [ih1 this]
      · intro h1000
        have : n / 10 < 100 := by omega
        have := ih2 this
        simp only [List.length_append, List.length_singleton]
        omega

theorem pyFormat03d_length (k : Nat) (hk : k < 1000) :
    (pyFormat03d k).length = 3 := by
  have := (decDigitsGo_length k k le_rfl).2.2 hk
  have hpos : 0 < (decDigitsGo k k).length := by
    cases k with
    | zero => simp [decDigitsGo]
    | succ m =>
      rw [decDigitsGo]
      split <;> simp
  simp only [pyFormat03d, decDigits, List.length_append, List.length_replicate]
  omega

/-- C4: for every wrapped line list of length n and positive
lines_per_page, the paginator emits exactly ceil of n over lines_per_page
page images, named with consecutive page numbers starting at one, each
number rendered as exactly three digits while at most 999; in particular
sixty wrapped lines with lines_per_page 25 give exactly three pages of 25,
25 and 10 lines. -/
theorem c4_page_count_names_scenario (lines : List PyStr) (basename : PyStr)
    (lpp : Nat) (hlpp : 0 < lpp) (hnl : ∀ l ∈ lines, '\n' ∉ l) :
    (split_into_pages lpp lines).length = (lines.length + lpp - 1) / lpp ∧
    page_image_names basename (split_into_pages lpp lines) =
      (List.range ((lines.length + lpp - 1) / lpp)).map
        (fun i => pageImageName basename (i + 1)) ∧
    (∀ k, 1 ≤ k → k ≤ 999 → (pyFormat03d k).length = 3) ∧
    (lines.length = 60 → lpp = 25 →
      (split_into_pages lpp lines).map (fun p => (p.splitOn '\n').length) =
        [25, 25, 10]) := by
  have hmap := split_into_pages_go_eq_map lpp lines []
  have hchunks := splitPagesLL_eq_chunksOf lpp hlpp lines []
      (by simp [Nat.le_of_lt hlpp])
  simp only [List.nil_append] at hchunks
  have hcount : (split_into_pages lpp lines).length = (lines.length + lpp - 1) / lpp := by
    rw [split_into_pages, hmap, List.length_map, hchunks]
    simpa using chunksOf_length lpp hlpp lines.length lines le_rfl
  refine ⟨hcount, ?_, ?_, ?_⟩
  · rw [page_image_names, hcount]
  · intro k _ hk
    exact pyFormat03d_length k (by omega)
  · intro h60 h25
    subst h25
    have hsplit : ∀ q ∈ splitPagesLL 25 [] lines,
        (['\n'].intercalate q).splitOn '\n' = q := by
      intro q hq
      refine List.splitOn_intercalate q '\n' ?_ ?_
      · intro l hl
        exact hnl l (splitPagesLL_line_mem 25 lines q hq l hl)
      · exact (splitPagesLL_mem 25 hlpp lines [] (by simp) q hq).2
    rw [split_into_pages, hmap, List.map_map]
    have hcg : ((splitPagesLL 25 [] lines).map
        ((fun p => (p.splitOn '\n').length) ∘ fun q => ['\n'].intercalate q)) =
        (splitPagesLL 25 [] lines).map List.length := by
      refine List.map_congr_left ?_
      intro q hq
      simp [Function.comp, hsplit q hq]
    rw [hcg, hchunks]
    have h1 : lines ≠ [] := by
      intro hnil
      rw [hnil] at h60
      simp at h60
    rw [chunksOf, dif_pos ⟨hlpp, h1⟩]
    have hd1 : (lines.drop 25).length = 35 := by simp [h60]
    have hd1ne : lines.drop 25 ≠ [] := by
      intro hnil
      rw [hnil] at hd1
      simp at hd1
    rw [chunksOf, dif_pos ⟨hlpp, hd1ne⟩]
    have hd2 : ((lines.drop 25).drop 25).length = 10 := by simp [h60]
    have hd2ne : (lines.drop 25).drop 25 ≠ [] := by
      intro hnil
      rw [hnil] at hd2
      simp at hd2
    rw [chunksOf, dif_pos ⟨hlpp, hd2ne⟩]
    have hd3 : (((lines.drop 25).drop 25).drop 25) = [] := by
      refine List.drop_of_length_le ?_
      omega
    rw [hd3, chunksOf]
    simp only [ne_eq, not_true_eq_false, and_false, dif_neg, not_false_eq_true]
    simp only [List.map_cons, List.map_nil, List.length_take, hd1, hd2, h60]
    decide

/-- Witness for C4 at sixty concrete one-character lines, basename ch and
lines_per_page 25. -/
theorem c4_page_count_names_scenario_witness :
    (split_into_pages 25 (List.replicate 60 ['x'])).length =
      ((List.replicate 60 (['x'] : PyStr)).length + 25 - 1) / 25 ∧
    page_image_names ['c', 'h'] (split_into_pages 25 (List.replicate 60 ['x'])) =
      (List.range (((List.replicate 60 (['x'] : PyStr)).length + 25 - 1) / 25)).map
        (fun i => pageImageName ['c', 'h'] (i + 1)) ∧
    (∀ k, 1 ≤ k → k ≤ 999 → (pyFormat03d k).length = 3) ∧
    ((List.replicate 60 (['x'] : PyStr)).length = 60 → 25 = 25 →
      (split_into_pages 25 (List.replicate 60 ['x'])).map
        (fun p => (p.splitOn '\n').length) = [25, 25, 10]) :=
  c4_page_count_names_scenario (List.replicate 60 ['x']) ['c', 'h'] 25
    (by decide) (by decide)

/-- NovelImageConverter.margin_left (line 742). -/
def margin_left : ℚ := 100

/-- NovelImageConverter.margin_right (line 743). -/
def margin_right : ℚ := 100

/-- NovelImageConverter.width (line 746), the fixed image width passed as
max_width to process_line by process_text. -/
def image_width : ℚ := 1500

/-- The Python expression sep.join(parts) for sep a single space, as used
on word lists in process_line. -/
def joinSpace : List PyStr → PyStr
  | [] => []
  | [w] => w
  | w :: w2 :: ws => w ++ ' ' :: joinSpace (w2 :: ws)

/-- Fuel-indexed form of the Python call line.split() with no separator:
split on runs of whitespace and drop empty pieces.  The fuel only makes
the recursion structural; with fuel at least the length of the string it
never runs out, because each step consumes at least one character. -/
def pySplitWSGo : Nat → PyStr → List PyStr
  | 0, _ => []
  | fuel + 1, s =>
    match s with
    | [] => []
    | c :: rest =>
      if pyIsSpace c then pySplitWSGo fuel rest
      else (c :: rest.takeWhile (fun d => !pyIsSpace d)) ::
        pySplitWSGo fuel (rest.dropWhile (fun d => !pyIsSpace d))

/-- The Python call line.split() with no separator, started with enough
fuel for its input. -/
def pySplitWS (s : PyStr) : List PyStr :=
  pySplitWSGo s.length s

/-- The greedy word-packing loop of process_line (lines 770 to 779), on a
state of completed output lines, current word group and current running
width.  The width of each word is measured with a trailing space; a word
is appended to the current group while the running width stays within the
available width, and otherwise the nonempty current group is flushed as a
space-joined line and the word starts a new group. -/
def wrapWordsGo (measure : PyStr → ℚ) (avail : ℚ) :
    List PyStr → List PyStr × List PyStr × ℚ → List PyStr × List PyStr × ℚ
  | [], st => st
  | w :: ws, (lines, cur, cw) =>
    let ww := measure (w ++ [' '])
    if cw + ww ≤ avail then
      wrapWordsGo measure avail ws (lines, cur ++ [w], cw + ww)
    else
      wrapWordsGo measure avail ws
        (lines ++ (if cur = [] then [] else [joinSpace cur]), [w], ww)

/-- The same greedy loop with each output line kept as its word group
instead of being joined with spaces. -/
def wrapGroupsGo (measure : PyStr → ℚ) (avail : ℚ) :
    List PyStr → List (List PyStr) × List PyStr × ℚ →
      List (List PyStr) × List PyStr × ℚ
  | [], st => st
  | w :: ws, (done, cur, cw) =>
    let ww := measure (w ++ [' '])
    if cw + ww ≤ avail then
      wrapGroupsGo measure avail ws (done, cur ++ [w], cw + ww)
    else
      wrapGroupsGo measure avail ws
        (done ++ (if cur = [] then [] else [cur]), [w], ww)

/-- The word groups of the wrapped output of a long line: the groups
flushed by the loop followed by the nonempty final group (lines 781 and
782). -/
def wrapGroups (measure : PyStr → ℚ) (avail : ℚ) (words : List PyStr) :
    List (List PyStr) :=
  let r := wrapGroupsGo measure avail words ([], [], 0)
  r.1 ++ (if r.2.1 = [] then [] else [r.2.1])

/-- NovelImageConverter.process_line (lines 754 to 784): an empty line and
a line whose measured width fits the available width are returned alone
and unchanged; a wider line is split into whitespace-separated words which
are packed greedily into space-joined sublines.  The font measurement
function of the image library is abstracted as the measure parameter. -/
def process_line (measure : PyStr → ℚ) (line : PyStr) (max_width : ℚ) :
    List PyStr :=
  if line = [] then [line]
  else
    let text_width := measure line
    let available_width := max_width - margin_left - margin_right
    if text_width ≤ available_width then [line]
    else
      let words := pySplitWS line
      let st := wrapWordsGo measure available_width words ([], [], 0)
      st.1 ++ (if st.2.1 = [] then [] else [joinSpace st.2.1])

/-- The for loop of NovelImageConverter.process_text (lines 791 to 799):
a blank or whitespace-only line is kept unchanged, every other line is
passed to process_line with the fixed image width. -/
def process_text_go (measure : PyStr → ℚ) : List PyStr → List PyStr
  | [] => []
  | l :: rest =>
    (if pyIsBlank l then [l] else process_line measure l image_width) ++
      process_text_go measure rest

/-- NovelImageConverter.process_text (lines 786 to 801): split the text on
newlines and process each line. -/
def process_text (measure : PyStr → ℚ) (text : PyStr) : List PyStr :=
  process_text_go measure (text.splitOn '\n')

theorem pySplitWSGo_fuel (fuel : Nat) :
    ∀ (fuel2 : Nat) (s : PyStr), s.length ≤ fuel → s.length ≤ fuel2 →
      pySplitWSGo fuel s = pySplitWSGo fuel2 s := by
  induction fuel with
  | zero =>
    intro fuel2 s h1 h2
    have hnil : s = [] := List.eq_nil_of_length_eq_zero (by omega)
    subst hnil
    cases fuel2 <;> simp [pySplitWSGo]
  | succ fuel ih =>
    intro fuel2 s h1 h2
    cases s with
    | nil => cases fuel2 <;> simp [pySplitWSGo]
    | cons c rest =>
      cases fuel2 with
      | zero => simp at h2
      | succ fuel2 =>
        simp only [List.length_cons] at h1 h2
        by_cases hc : pyIsSpace c
        · simp only [pySplitWSGo, if_pos hc]
          exact ih fuel2 rest (by omega) (by omega)
        · simp only [pySplitWSGo, if_neg hc, List.cons.injEq, true_and]
          have hd : (rest.dropWhile (fun d => !pyIsSpace d)).length ≤ rest.length :=
            (List.dropWhile_suffix (fun d => !pyIsSpace d)).sublist.length_le
          exact ih fuel2 (rest.dropWhile (fun d => !pyIsSpace d)) (by omega) (by omega)

theorem pySplitWS_nil : pySplitWS [] = [] := rfl

theorem pySplitWS_cons_space (c : Char) (rest : PyStr) (hc : pyIsSpace c = true) :
    pySplitWS (c :: rest) = pySplitWS rest := by
  simp only [pySplitWS, List.length_cons, pySplitWSGo, if_pos hc]

theorem pySplitWS_cons_word (c : Char) (rest : PyStr) (hc : pyIsSpace c = false) :
    pySplitWS (c :: rest) =
      (c :: rest.takeWhile (fun d => !pyIsSpace d)) ::
        pySplitWS (rest.dropWhile (fun d => !pyIsSpace d)) := by
  simp only [pySplitWS, List.length_cons, pySplitWSGo, hc, Bool.false_eq_true,
    if_false]
  have hd : (rest.dropWhile (fun d => !pyIsSpace d)).length ≤ rest.length :=
    (List.dropWhile_suffix (fun d => !pyIsSpace d)).sublist.length_le
  exact congrArg _ (pySplitWSGo_fuel rest.length _ _ (by omega) le_rfl)

/-- Every token of line.split() is nonempty and contains no whitespace. -/
theorem pySplitWSGo_tokens (fuel : Nat) :
    ∀ (s : PyStr), ∀ w ∈ pySplitWSGo fuel s,
      w ≠ [] ∧ ∀ c ∈ w, pyIsSpace c = false := by
  induction fuel with
  | zero => intro s w hw; simp [pySplitWSGo] at hw
  | succ fuel ih =>
    intro s w hw
    cases s with
    | nil => simp [pySplitWSGo] at hw
    | cons c rest =>
      by_cases hc : pyIsSpace c
      · rw [pySplitWSGo, if_pos hc] at hw
        exact ih rest w hw
      · rw [pySplitWSGo, if_neg hc] at hw
        rcases List.mem_cons.mp hw with rfl | hw
        · refine ⟨by simp, ?_⟩
          intro d hd
          rcases List.mem_cons.mp hd with rfl | hd
          · simpa using hc
          · have := List.mem_takeWhile_imp hd
            simpa using this
        · exact ih _ w hw

theorem pySplitWS_tokens (s : PyStr) :
    ∀ w ∈ pySplitWS s, w ≠ [] ∧ ∀ c ∈ w, pyIsSpace c = false :=
  pySplitWSGo_tokens s.length s

/-- Every token of line.split() occurs contiguously inside the line. -/
theorem pySplitWSGo_isInfix (fuel : Nat) :
    ∀ (s : PyStr), ∀ w ∈ pySplitWSGo fuel s, w <:+: s := by
  induction fuel with
  | zero => intro s w hw; simp [pySplitWSGo] at hw
  | succ fuel ih =>
    intro s w hw
    cases s with
    | nil => simp [pySplitWSGo] at hw
    | cons c rest =>
      by_cases hc : pyIsSpace c
      · rw [pySplitWSGo, if_pos hc] at hw
        have := ih rest w hw
        exact this.trans ⟨[c], [], by simp⟩
      · rw [pySplitWSGo, if_neg hc] at hw
        rcases List.mem_cons.mp hw with rfl | hw
        · exact ⟨[], rest.dropWhile (fun d => !pyIsSpace d), by
            simp [List.takeWhile_append_dropWhile]⟩
        · have := ih _ w hw
          refine this.trans ⟨c :: rest.takeWhile (fun d => !pyIsSpace d), [], ?_⟩
          simp [List.takeWhile_append_dropWhile]

theorem pySplitWS_isInfix (s : PyStr) : ∀ w ∈ pySplitWS s, w <:+: s :=
  pySplitWSGo_isInfix s.length s

theorem takeWhile_append_stop (p : Char → Bool) (y : Char) (t : PyStr)
    (hy : p y = false) :
    ∀ xs : PyStr, (∀ c ∈ xs, p c = true) →
      (xs ++ y :: t).takeWhile p = xs ∧ (xs ++ y :: t).dropWhile p = y :: t := by
  intro xs
  induction xs with
  | nil => intro _; simp [List.takeWhile, List.dropWhile, hy]
  | cons x xs ih =>
    intro hall
    have hx : p x = true := hall x (List.mem_cons_self x xs)
    have := ih fun c hc => hall c (List.mem_cons_of_mem x hc)
    simp [List.takeWhile_cons, List.dropWhile_cons, hx, this.1, this.2]

/-- Splitting a nonempty whitespace-free string yields the string itself. -/
theorem pySplitWS_single (w : PyStr) (hne : w ≠ [])
    (hns : ∀ c ∈ w, pyIsSpace c = false) : pySplitWS w = [w] := by
  cases w with
  | nil => exact absurd rfl hne
  | cons c rest =>
    have hc : pyIsSpace c = false := hns c (List.mem_cons_self c rest)
    rw [pySplitWS_cons_word c rest hc]
    have htk : rest.takeWhile (fun d => !pyIsSpace d) = rest :=
      List.takeWhile_eq_self_iff.mpr (by
        intro d hd
        simp [hns d (List.mem_cons_of_mem c hd)])
    have hdp : rest.dropWhile (fun d => !pyIsSpace d) = [] :=
      List.dropWhile_eq_nil_iff.mpr (by
        intro d hd
        simp [hns d (List.mem_cons_of_mem c hd)])
    rw [htk, hdp, pySplitWS_nil]

/-- Splitting a whitespace-free word, a space and a remainder yields the
word followed by the split of the remainder. -/
theorem pySplitWS_word_space (w : PyStr) (t : PyStr) (hne : w ≠ [])
    (hns : ∀ c ∈ w, pyIsSpace c = false) :
    pySplitWS (w ++ ' ' :: t) = w :: pySplitWS t := by
  cases w with
  | nil => exact absurd rfl hne
  | cons c rest =>
    have hc : pyIsSpace c = false := hns c (List.mem_cons_self c rest)
    have hrest : ∀ d ∈ rest, (fun d => !pyIsSpace d) d = true := by
      intro d hd
      simp [hns d (List.mem_cons_of_mem c hd)]
    have hsp : (fun d => !pyIsSpace d) ' ' = false := by simp [pyIsSpace]
    obtain ⟨htk, hdp⟩ := takeWhile_append_stop (fun d => !pyIsSpace d) ' ' t hsp rest hrest
    rw [List.cons_append, pySplitWS_cons_word c (rest ++ ' ' :: t) hc, htk, hdp,
      pySplitWS_cons_space ' ' t (by simp [pyIsSpace])]

/-- Round trip: splitting the space-join of nonempty whitespace-free words
returns the words. -/
theorem pySplitWS_joinSpace (ws : List PyStr)
    (h : ∀ w ∈ ws, w ≠ [] ∧ ∀ c ∈ w, pyIsSpace c = false) :
    pySplitWS (joinSpace ws) = ws := by
  induction ws with
  | nil => simp [joinSpace, pySplitWS_nil]
  | cons w ws ih =>
    obtain ⟨hne, hns⟩ := h w (List.mem_cons_self w ws)
    cases ws with
    | nil => simpa [joinSpace] using pySplitWS_single w hne hns
    | cons w2 ws2 =>
      rw [show joinSpace (w :: w2 :: ws2) = w ++ ' ' :: joinSpace (w2 :: ws2) from rfl,
        pySplitWS_word_space w _ hne hns,
        ih fun x hx => h x (List.mem_cons_of_mem w hx)]

/-- Characters of a word are characters of any space-join containing it. -/
theorem mem_joinSpace_of_mem (ws : List PyStr) (w : PyStr) (c : Char)
    (hw : w ∈ ws) (hc : c ∈ w) : c ∈ joinSpace ws := by
  induction ws with
  | nil => simp at hw
  | cons x xs ih =>
    rcases List.mem_cons.mp hw with rfl | hw
    · cases xs with
      | nil => simpa [joinSpace] using hc
      | cons y ys => simp [joinSpace, hc]
    · cases xs with
      | nil => simp at hw
      | cons y ys =>
        simp only [joinSpace, List.mem_append, List.mem_cons]
        right
        right
        exact ih hw

theorem joinSpace_append (b : List PyStr) (hb : b ≠ []) :
    ∀ a : List PyStr, a ≠ [] →
      joinSpace (a ++ b) = joinSpace a ++ ' ' :: joinSpace b := by
  intro a
  induction a with
  | nil => intro ha; exact absurd rfl ha
  | cons x xs ih =>
    intro _
    cases xs with
    | nil =>
      cases b with
      | nil => exact absurd rfl hb
      | cons y ys => simp [joinSpace]
    | cons x2 xs2 =>
      have hrec := ih (by simp)
      calc joinSpace ((x :: x2 :: xs2) ++ b)
          = x ++ ' ' :: joinSpace ((x2 :: xs2) ++ b) := rfl
        _ = x ++ ' ' :: (joinSpace (x2 :: xs2) ++ ' ' :: joinSpace b) := by
            rw [hrec]
        _ = (x ++ ' ' :: joinSpace (x2 :: xs2)) ++ ' ' :: joinSpace b := by
            simp
        _ = joinSpace (x :: x2 :: xs2) ++ ' ' :: joinSpace b := rfl

/-- Space-joining the space-joins of nonempty groups is the space-join of
the concatenation. -/
theorem joinSpace_map_joinSpace (gs : List (List PyStr))
    (h : ∀ g ∈ gs, g ≠ []) :
    joinSpace (gs.map joinSpace) = joinSpace gs.flatten := by
  induction gs with
  | nil => simp [joinSpace]
  | cons g gs ih =>
    cases gs with
    | nil => simp [joinSpace]
    | cons g2 gs2 =>
      have hg : g ≠ [] := h g (List.mem_cons_self g (g2 :: gs2))
      have hflat : (g2 :: gs2).flatten ≠ [] := by
        have hg2 : g2 ≠ [] := h g2 (by simp)
        simp only [List.flatten_cons, ne_eq, List.append_eq_nil]
        intro hcon
        exact hg2 hcon.1
      have hstep : joinSpace (List.map joinSpace (g :: g2 :: gs2)) =
          joinSpace g ++ ' ' :: joinSpace (List.map joinSpace (g2 :: gs2)) := rfl
      rw [List.flatten_cons, hstep,
        ih fun x hx => h x (List.mem_cons_of_mem g hx),
        joinSpace_append (g2 :: gs2).flatten hflat g hg]

/-- The running width the loop assigns to a word group: the sum of the
widths of its words, each measured with a trailing space. -/
def groupW (measure : PyStr → ℚ) (g : List PyStr) : ℚ :=
  (g.map fun w => measure (w ++ [' '])).sum

theorem wrapWordsGo_eq_groups (measure : PyStr → ℚ) (avail : ℚ) :
    ∀ (ws : List PyStr) (done : List (List PyStr)) (cur : List PyStr) (cw : ℚ),
      wrapWordsGo measure avail ws (done.map joinSpace, cur, cw) =
        ((wrapGroupsGo measure avail ws (done, cur, cw)).1.map joinSpace,
         (wrapGroupsGo measure avail ws (done, cur, cw)).2.1,
         (wrapGroupsGo measure avail ws (done, cur, cw)).2.2) := by
  intro ws
  induction ws with
  | nil => intro done cur cw; simp [wrapWordsGo, wrapGroupsGo]
  | cons w ws ih =>
    intro done cur cw
    by_cases h : cw + measure (w ++ [' ']) ≤ avail
    · simp only [wrapWordsGo, wrapGroupsGo, if_pos h]
      exact ih done (cur ++ [w]) _
    · simp only [wrapWordsGo, wrapGroupsGo, if_neg h]
      by_cases hcur : cur = []
      · subst hcur
        simpa using ih done [w] _
      · have hmap : done.map joinSpace ++ [joinSpace cur] =
            (done ++ [cur]).map joinSpace := by simp
        rw [if_neg hcur, if_neg hcur, hmap]
        exact ih (done ++ [cur]) [w] _

/-- Loop invariant of the greedy packing loop: the running width is the
group width of the current group, a current group of two or more words
fits the available width, every flushed group is nonempty and fits when it
has two or more words, and no word is dropped, duplicated or reordered. -/
theorem wrapGroupsGo_spec (measure : PyStr → ℚ) (avail : ℚ) :
    ∀ (ws : List PyStr) (done : List (List PyStr)) (cur : List PyStr) (cw : ℚ)
      (done2 : List (List PyStr)) (cur2 : List PyStr) (cw2 : ℚ),
      wrapGroupsGo measure avail ws (done, cur, cw) = (done2, cur2, cw2) →
      cw = groupW measure cur →
      (2 ≤ cur.length → cw ≤ avail) →
      (∀ g ∈ done, g ≠ [] ∧ (2 ≤ g.length → groupW measure g ≤ avail)) →
      cw2 = groupW measure cur2 ∧
      (2 ≤ cur2.length → cw2 ≤ avail) ∧
      (∀ g ∈ done2, g ≠ [] ∧ (2 ≤ g.length → groupW measure g ≤ avail)) ∧
      done2.flatten ++ cur2 = done.flatten ++ cur ++ ws := by
  intro ws
  induction ws with
  | nil =>
    intro done cur cw done2 cur2 cw2 heq h1 h2 h3
    simp only [wrapGroupsGo, Prod.mk.injEq] at heq
    obtain ⟨e1, e2, e3⟩ := heq
    subst e1; subst e2; subst e3
    exact ⟨h1, h2, h3, by simp⟩
  | cons w ws ih =>
    intro done cur cw done2 cur2 cw2 heq h1 h2 h3
    by_cases h : cw + measure (w ++ [' ']) ≤ avail
    · rw [wrapGroupsGo, if_pos h] at heq
      have hg : cw + measure (w ++ [' ']) = groupW measure (cur ++ [w]) := by
        simp [groupW, h1]
      obtain ⟨r1, r2, r3, r4⟩ := ih done (cur ++ [w]) _ done2 cur2 cw2 heq hg
        (fun _ => h) h3
      refine ⟨r1, r2, r3, ?_⟩
      rw [r4]
      simp
    · rw [wrapGroupsGo, if_neg h] at heq
      have hg : measure (w ++ [' ']) = groupW measure [w] := by simp [groupW]
      have hdone : ∀ g ∈ done ++ (if cur = [] then [] else [cur]),
          g ≠ [] ∧ (2 ≤ g.length → groupW measure g ≤ avail) := by
        intro g hgm
        rcases List.mem_append.mp hgm with hgm | hgm
        · exact h3 g hgm
        · by_cases hcur : cur = []
          · rw [if_pos hcur] at hgm
            simp at hgm
          · rw [if_neg hcur] at hgm
            rcases List.mem_singleton.mp hgm with rfl
            exact ⟨hcur, fun hlen => h1 ▸ h2 hlen⟩
      obtain ⟨r1, r2, r3, r4⟩ := ih _ [w] _ done2 cur2 cw2 heq hg
        (by intro hl; simp at hl) hdone
      refine ⟨r1, r2, r3, ?_⟩
      rw [r4]
      by_cases hcur : cur = []
      · subst hcur
        simp
      · rw [if_neg hcur]
        simp

/-- The word groups of the wrapped output of the greedy loop: all groups
are nonempty, their concatenation is the word list, and a group of two or
more words has group width at most the available width. -/
theorem wrapGroups_spec (measure : PyStr → ℚ) (avail : ℚ) (words : List PyStr) :
    (∀ g ∈ wrapGroups measure avail words, g ≠ []) ∧
    (wrapGroups measure avail words).flatten = words ∧
    (∀ g ∈ wrapGroups measure avail words, 2 ≤ g.length →
      groupW measure g ≤ avail) := by
  rcases hr : wrapGroupsGo measure avail words ([], [], 0) with ⟨d2, rest⟩
  rcases rest with ⟨c2, w2⟩
  obtain ⟨r1, r2, r3, r4⟩ := wrapGroupsGo_spec measure avail words [] [] 0 d2 c2 w2
    hr (by simp [groupW]) (by simp) (by simp)
  have hwg : wrapGroups measure avail words = d2 ++ (if c2 = [] then [] else [c2]) := by
    simp only [wrapGroups, hr]
  have hmem : ∀ g ∈ wrapGroups measure avail words,
      g ∈ d2 ∨ (g = c2 ∧ c2 ≠ []) := by
    intro g hg
    rw [hwg] at hg
    rcases List.mem_append.mp hg with hg | hg
    · exact Or.inl hg
    · by_cases hc : c2 = []
      · rw [if_pos hc] at hg; simp at hg
      · rw [if_neg hc] at hg
        exact Or.inr ⟨List.mem_singleton.mp hg, hc⟩
  refine ⟨?_, ?_, ?_⟩
  · intro g hg
    rcases hmem g hg with hg | ⟨rfl, hne⟩
    · exact (r3 g hg).1
    · exact hne
  · rw [hwg]
    simp only [List.flatten_append]
    have : (if c2 = [] then ([] : List (List PyStr)) else [c2]).flatten = c2 := by
      by_cases hc : c2 = []
      · simp [hc]
      · simp [hc]
    rw [this]
    simpa using r4
  · intro g hg hlen
    rcases hmem g hg with hg | ⟨rfl, _⟩
    · exact (r3 g hg).2 hlen
    · exact r1 ▸ r2 hlen

/-- In the wide branch, process_line is the space-join of the word groups
of the greedy loop. -/
theorem process_line_split (measure : PyStr → ℚ) (line : PyStr) (mw : ℚ)
    (hne : line ≠ []) (hwide : ¬ measure line ≤ mw - margin_left - margin_right) :
    process_line measure line mw =
      (wrapGroups measure (mw - margin_left - margin_right) (pySplitWS line)).map
        joinSpace := by
  simp only [process_line, if_neg hne, if_neg hwide, wrapGroups]
  have hcorr := wrapWordsGo_eq_groups measure (mw - margin_left - margin_right)
    (pySplitWS line) [] [] 0
  simp only [List.map_nil] at hcorr
  rw [hcorr]
  rcases hr : wrapGroupsGo measure (mw - margin_left - margin_right)
      (pySplitWS line) ([], [], 0) with ⟨d2, rest⟩
  rcases rest with ⟨c2, w2⟩
  by_cases hc : c2 = []
  · simp [hc]
  · simp only [hc, if_neg, List.map_append]
    simp [hc]

theorem measure_le_of_isInfix (measure : PyStr → ℚ)
    (Hadd : ∀ a b : PyStr, measure (a ++ b) = measure a + measure b)
    (Hnn : ∀ s : PyStr, 0 ≤ measure s) (w line : PyStr) (h : w <:+: line) :
    measure w ≤ measure line := by
  obtain ⟨s, t, rfl⟩ := h
  rw [Hadd, Hadd]
  have hs := Hnn s
  have ht := Hnn t
  linarith

/-- The measured width of a space-joined nonempty group is its group width
minus one trailing space. -/
theorem measure_joinSpace (measure : PyStr → ℚ)
    (Hadd : ∀ a b : PyStr, measure (a ++ b) = measure a + measure b) :
    ∀ g : List PyStr, g ≠ [] →
      measure (joinSpace g) + measure [' '] = groupW measure g := by
  intro g
  induction g with
  | nil => intro h; exact absurd rfl h
  | cons w ws ih =>
    intro _
    cases ws with
    | nil =>
      show measure w + measure [' '] = groupW measure [w]
      simp [groupW, ← Hadd]
    | cons w2 ws2 =>
      have hrec := ih (by simp)
      have h1 : measure (joinSpace (w :: w2 :: ws2)) =
          measure w + measure [' '] + measure (joinSpace (w2 :: ws2)) := by
        show measure (w ++ ' ' :: joinSpace (w2 :: ws2)) = _
        rw [show (' ' :: joinSpace (w2 :: ws2) : PyStr) =
          [' '] ++ joinSpace (w2 :: ws2) from rfl, Hadd, Hadd]
        ring
      have h2 : groupW measure (w :: w2 :: ws2) =
          measure (w ++ [' ']) + groupW measure (w2 :: ws2) := by
        simp [groupW]
      rw [h1, h2, Hadd]
      linarith

theorem groupW_single_le (measure : PyStr → ℚ)
    (Hnn : ∀ s : PyStr, 0 ≤ measure s) (g : List PyStr) (w : PyStr)
    (hw : w ∈ g) : measure (w ++ [' ']) ≤ groupW measure g := by
  refine List.single_le_sum ?_ _ (List.mem_map_of_mem _ hw)
  intro x hx
  rcases List.mem_map.mp hx with ⟨y, _, rfl⟩
  exact Hnn _

/-- C8: process_line never truncates or drops a word: the words of the
emitted sublines, in order, are exactly the words of the input line; every
emitted subline with two or more words has measured width within the
available width; and a word measured wider than the available width is
emitted intact as a subline of its own (possibly exceeding the width,
which the renderer only warns about).  The hypotheses state that the
abstract font measure is additive over concatenation and nonnegative,
as the advance-width returned by the image library is. -/
theorem c8_process_line_word_preservation (measure : PyStr → ℚ) (mw : ℚ)
    (line : PyStr)
    (Hadd : ∀ a b : PyStr, measure (a ++ b) = measure a + measure b)
    (Hnn : ∀ s : PyStr, 0 ≤ measure s) :
    ((process_line measure line mw).map pySplitWS).flatten = pySplitWS line ∧
    (∀ sub ∈ process_line measure line mw, 2 ≤ (pySplitWS sub).length →
      measure sub ≤ mw - margin_left - margin_right) ∧
    (∀ w ∈ pySplitWS line, mw - margin_left - margin_right < measure w →
      w ∈ process_line measure line mw) := by
  by_cases hne : line = []
  · subst hne
    refine ⟨by simp [process_line, pySplitWS_nil], ?_, ?_⟩
    · intro sub hsub h2
      rw [show process_line measure [] mw = [[]] from rfl,
        List.mem_singleton] at hsub
      subst hsub
      rw [pySplitWS_nil] at h2
      simp at h2
    · intro w hw
      rw [pySplitWS_nil] at hw
      simp at hw
  · by_cases hfit : measure line ≤ mw - margin_left - margin_right
    · have hout : process_line measure line mw = [line] := by
        simp [process_line, hne, hfit]
      refine ⟨by simp [hout], ?_, ?_⟩
      · intro sub hsub _
        rw [hout] at hsub
        rcases List.mem_singleton.mp hsub with rfl
        exact hfit
      · intro w hw hwide
        exfalso
        have := measure_le_of_isInfix measure Hadd Hnn w line
          (pySplitWS_isInfix line w hw)
        linarith
    · have hout := process_line_split measure line mw hne hfit
      obtain ⟨hg1, hg2, hg3⟩ :=
        wrapGroups_spec measure (mw - margin_left - margin_right) (pySplitWS line)
      have hgtok : ∀ g ∈ wrapGroups measure (mw - margin_left - margin_right)
          (pySplitWS line), ∀ w ∈ g, w ≠ [] ∧ ∀ c ∈ w, pyIsSpace c = false := by
        intro g hg w hw
        refine pySplitWS_tokens line w ?_
        rw [← hg2]
        exact List.mem_flatten.mpr ⟨g, hg, hw⟩
      have hround : ∀ g ∈ wrapGroups measure (mw - margin_left - margin_right)
          (pySplitWS line), pySplitWS (joinSpace g) = g := by
        intro g hg
        exact pySplitWS_joinSpace g (hgtok g hg)
      refine ⟨?_, ?_, ?_⟩
      · rw [hout, List.map_map]
        have hcong : ((wrapGroups measure (mw - margin_left - margin_right)
            (pySplitWS line)).map (pySplitWS ∘ joinSpace)) =
            (wrapGroups measure (mw - margin_left - margin_right)
              (pySplitWS line)).map id := by
          refine List.map_congr_left ?_
          intro g hg
          simpa [Function.comp] using hround g hg
        rw [hcong, List.map_id, hg2]
      · intro sub hsub h2
        rw [hout] at hsub
        rcases List.mem_map.mp hsub with ⟨g, hg, rfl⟩
        rw [hround g hg] at h2
        have hbound := hg3 g hg h2
        have hjs := measure_joinSpace measure Hadd g (hg1 g hg)
        have hsp := Hnn [' ']
        linarith
      · intro w hw hwide
        have hwin : w ∈ (wrapGroups measure (mw - margin_left - margin_right)
            (pySplitWS line)).flatten := by
          rw [hg2]; exact hw
        rcases List.mem_flatten.mp hwin with ⟨g, hg, hwg⟩
        have hglen : g.length = 1 := by
          by_contra hcon
          have hpos := List.length_pos.mpr (hg1 g hg)
          have h2 : 2 ≤ g.length := by omega
          have hb := hg3 g hg h2
          have hle := groupW_single_le measure Hnn g w hwg
          have hadd1 : measure (w ++ [' ']) = measure w + measure [' '] :=
            Hadd w [' ']
          have hsp := Hnn [' ']
          linarith
        have hgsing : g = [w] := by
          cases g with
          | nil => simp at hglen
          | cons a rest =>
            cases rest with
            | nil =>
              rcases List.mem_singleton.mp hwg with rfl
              rfl
            | cons b r2 => simp at hglen
        rw [hout]
        refine List.mem_map.mpr ⟨g, hg, ?_⟩
        rw [hgsing]
        rfl

/-- Witness for C8 with the character-count measure, width zero and the
line a space b: hypotheses additivity and nonnegativity are discharged at
the length measure. -/
theorem c8_process_line_word_preservation_witness :
    ((process_line (fun s => (s.length : ℚ)) ['a', ' ', 'b'] 0).map
      pySplitWS).flatten = pySplitWS ['a', ' ', 'b'] ∧
    (∀ sub ∈ process_line (fun s => (s.length : ℚ)) ['a', ' ', 'b'] 0,
      2 ≤ (pySplitWS sub).length →
        (fun s => ((s.length : ℚ))) sub ≤ 0 - margin_left - margin_right) ∧
    (∀ w ∈ pySplitWS ['a', ' ', 'b'],
      0 - margin_left - margin_right < (fun s => ((s.length : ℚ))) w →
        w ∈ process_line (fun s => (s.length : ℚ)) ['a', ' ', 'b'] 0) :=
  c8_process_line_word_preservation (fun s => (s.length : ℚ)) 0 ['a', ' ', 'b']
    (fun a b => by simp) (fun s => Nat.cast_nonneg _)

/-- C10: for a line measured wider than the available width, process_line
does not preserve the whitespace of the line: the single-space join of its
output sublines equals the single-space join of the whitespace-delimited
words of the line, so interior whitespace runs collapse to one space and
leading and trailing whitespace disappears, while word content and order
are preserved. -/
theorem c10_process_line_joinspace (measure : PyStr → ℚ) (mw : ℚ)
    (line : PyStr)
    (hwide : mw - margin_left - margin_right < measure line) :
    joinSpace (process_line measure line mw) = joinSpace (pySplitWS line) := by
  by_cases hne : line = []
  · subst hne
    rfl
  · have hfit : ¬ measure line ≤ mw - margin_left - margin_right := by linarith
    have hout := process_line_split measure line mw hne hfit
    obtain ⟨hg1, hg2, _⟩ :=
      wrapGroups_spec measure (mw - margin_left - margin_right) (pySplitWS line)
    rw [hout, joinSpace_map_joinSpace _ hg1, hg2]

/-- Witness for C10 with the character-count measure, width zero and a
line with leading, interior and trailing extra whitespace. -/
theorem c10_process_line_joinspace_witness :
    0 - margin_left - margin_right <
      (fun s : PyStr => ((s.length : ℚ))) [' ', 'a', ' ', ' ', 'b', ' '] ∧
    joinSpace (process_line (fun s => (s.length : ℚ))
        [' ', 'a', ' ', ' ', 'b', ' '] 0) =
      joinSpace (pySplitWS [' ', 'a', ' ', ' ', 'b', ' ']) :=
  ⟨by norm_num [margin_left, margin_right],
    c10_process_line_joinspace (fun s => (s.length : ℚ)) 0
      [' ', 'a', ' ', ' ', 'b', ' ']
      (by norm_num [margin_left, margin_right])⟩

theorem process_line_not_blank (measure : PyStr → ℚ) (l : PyStr) (mw : ℚ)
    (hl : pyIsBlank l = false) :
    ∀ sub ∈ process_line measure l mw, pyIsBlank sub = false := by
  by_cases hne : l = []
  · subst hne
    simp [pyIsBlank] at hl
  · by_cases hfit : measure l ≤ mw - margin_left - margin_right
    · intro sub hsub
      have hout : process_line measure l mw = [l] := by
        simp [process_line, hne, hfit]
      rw [hout] at hsub
      rcases List.mem_singleton.mp hsub with rfl
      exact hl
    · intro sub hsub
      have hout := process_line_split measure l mw hne hfit
      rw [hout] at hsub
      rcases List.mem_map.mp hsub with ⟨g, hg, rfl⟩
      obtain ⟨hg1, hg2, _⟩ :=
        wrapGroups_spec measure (mw - margin_left - margin_right) (pySplitWS l)
      have hgne := hg1 g hg
      rcases hgg : g with _ | ⟨w, grest⟩
      · exact absurd hgg hgne
      · subst hgg
        have hwmem : w ∈ pySplitWS l := by
          rw [← hg2]
          exact List.mem_flatten.mpr ⟨w :: grest, hg, List.mem_cons_self _ _⟩
        obtain ⟨hwne, hwns⟩ := pySplitWS_tokens l w hwmem
        rcases hww : w with _ | ⟨c, wrest⟩
        · exact absurd hww hwne
        · subst hww
          have hcmem : c ∈ joinSpace ((c :: wrest) :: grest) :=
            mem_joinSpace_of_mem ((c :: wrest) :: grest) (c :: wrest) c
              (List.mem_cons_self _ _) (List.mem_cons_self _ _)
          have hcns : pyIsSpace c = false := hwns c (List.mem_cons_self _ _)
          show (joinSpace ((c :: wrest) :: grest)).all pyIsSpace = false
          exact List.all_eq_false.mpr ⟨c, hcmem, by simp [hcns]⟩

/-- Blank lines survive the whole text processing pipeline unchanged: the
blank lines of the processed output are exactly the blank lines of the
input, in order and with their exact whitespace content. -/
theorem process_text_go_filter_blank (measure : PyStr → ℚ) :
    ∀ ls : List PyStr,
      (process_text_go measure ls).filter (fun l => pyIsBlank l) =
        ls.filter (fun l => pyIsBlank l) := by
  intro ls
  induction ls with
  | nil => rfl
  | cons l rest ih =>
    by_cases hb : pyIsBlank l = true
    · simp only [process_text_go, if_pos hb, List.filter_append, ih,
        List.filter_cons, hb, if_true]
      rfl
    · have hbf : pyIsBlank l = false := by simpa using hb
      simp only [process_text_go, hbf, Bool.false_eq_true, if_false,
        List.filter_append, ih]
      have hnil : (process_line measure l image_width).filter
          (fun x => pyIsBlank x) = [] := by
        rw [List.filter_eq_nil_iff]
        intro a ha
        simp [process_line_not_blank measure l image_width hbf a ha]
      rw [hnil, List.filter_cons]
      simp [hbf]

/-- C5: a line whose measured width fits within the available width is
returned by process_line as exactly one unchanged line, and blank or
whitespace-only lines pass through process_text unchanged, as paragraph
breaks: the blank lines of the output are exactly the blank lines of the
newline-split input. -/
theorem c5_process_line_fit_blank_passthrough (measure : PyStr → ℚ) (mw : ℚ)
    (line text : PyStr) :
    (measure line ≤ mw - margin_left - margin_right →
      process_line measure line mw = [line]) ∧
    (process_text measure text).filter (fun l => pyIsBlank l) =
      (text.splitOn '\n').filter (fun l => pyIsBlank l) := by
  constructor
  · intro hfit
    by_cases hne : line = []
    · subst hne
      rfl
    · simp [process_line, hne, hfit]
  · exact process_text_go_filter_blank measure (text.splitOn '\n')

/-- Witness for C5 with the character-count measure, the two character
line hi at the real image width, and a text of one word line, one blank
line and one whitespace-only line. -/
theorem c5_process_line_fit_blank_passthrough_witness :
    process_line (fun s => (s.length : ℚ)) ['h', 'i'] 1500 = [['h', 'i']] ∧
    (process_text (fun s => (s.length : ℚ)) ['a', '\n', '\n', ' ']).filter
        (fun l => pyIsBlank l) =
      ((['a', '\n', '\n', ' '] : PyStr).splitOn '\n').filter
        (fun l => pyIsBlank l) :=
  ⟨(c5_process_line_fit_blank_passthrough (fun s => (s.length : ℚ)) 1500
      ['h', 'i'] ['a', '\n', '\n', ' ']).1
        (by norm_num [margin_left, margin_right]),
    (c5_process_line_fit_blank_passthrough (fun s => (s.length : ℚ)) 1500
      ['h', 'i'] ['a', '\n', '\n', ' ']).2⟩

/-- One polling iteration of _wait_for_page_load as observed through the
browser: whether the lowered page source contains one of the interstitial
phrases, whether handle_turnstile reported success, whether the JS
challenge poll cleared within its bounded wait, and whether
verify_page_loaded found a body element within its five second wait. -/
structure PollStep where
  hasInterstitial : Bool
  turnstileOk : Bool
  jsOk : Bool
  verifyOk : Bool
deriving DecidableEq

/-- CloudflareBypass._wait_for_page_load (lines 348 to 373): the branch
structure of the polling loop over a finite observation sequence, where an
exhausted list is the fifteen second timeout.  It returns the observation
at which the loop returned success, or none on timeout.  When an
interstitial phrase is found, emulate_human_behavior and handle_turnstile
run; on turnstile success and a cleared JS challenge wait the code invokes
verify_page_loaded and returns True whatever its result (lines 357 to
362); when no phrase is found the code invokes verify_page_loaded and
returns True whatever its result (lines 366 to 370); in all other cases
the loop polls again. -/
def wait_for_page_load_run : List PollStep → Option PollStep
  | [] => none
  | s :: rest =>
    if s.hasInterstitial then
      if s.turnstileOk then
        if s.jsOk then some s
        else wait_for_page_load_run rest
      else wait_for_page_load_run rest
    else some s

/-- The boolean returned by CloudflareBypass._wait_for_page_load. -/
def wait_for_page_load (steps : List PollStep) : Bool :=
  (wait_for_page_load_run steps).isSome

/-- C1 counterexample: on a first poll with no interstitial phrase and a
failing verify_page_loaded, _wait_for_page_load still returns success, so
success is not reported only after verify_page_loaded has succeeded. -/
theorem c1_counterexample_verify_ignored :
    wait_for_page_load_run
        [{ hasInterstitial := false, turnstileOk := false, jsOk := false,
           verifyOk := false }] =
      some { hasInterstitial := false, turnstileOk := false, jsOk := false,
             verifyOk := false } ∧
    ({ hasInterstitial := false, turnstileOk := false, jsOk := false,
       verifyOk := false } : PollStep).verifyOk = false := by
  decide

/-- C1 amended: _wait_for_page_load reports success for an attempt exactly
when some poll observes either no interstitial phrase or a handled
turnstile followed by a cleared JS challenge wait; verify_page_loaded is
invoked on both success paths but its result is discarded, so the reported
success is independent of the verifyOk field of every observation. -/
theorem c1_wait_success_ignores_verify (steps : List PollStep) :
    wait_for_page_load steps =
      steps.any (fun s => !s.hasInterstitial || (s.turnstileOk && s.jsOk)) := by
  induction steps with
  | nil => rfl
  | cons s rest ih =>
    simp only [wait_for_page_load, wait_for_page_load_run, List.any_cons] at ih ⊢
    by_cases h1 : s.hasInterstitial
    · by_cases h2 : s.turnstileOk
      · by_cases h3 : s.jsOk
        · simp [h1, h2, h3]
        · simp [h1, h2, h3, ih]
      · simp [h1, h2, ih]
    · simp [h1]

/-- The observable outcome of one navigation attempt of visit_page: the
page load wait returned True, the page load wait returned False, or an
exception escaped the attempt.  Exceptions are modelled as raised after
the driver creation at the start of the attempt. -/
inductive AttemptOutcome
  | success
  | loadFail
  | exc
deriving DecidableEq

/-- What one executed attempt of visit_page did: whether it created the
browser session at its start (lines 378 to 382), its outcome, whether it
afterwards cleared cookies, localStorage and sessionStorage (lines 392 to
395), and whether it afterwards quit and discarded the driver (lines 399
to 402). -/
structure AttemptRecord where
  createdDriver : Bool
  outcome : AttemptOutcome
  clearedStorage : Bool
  toreDown : Bool
deriving DecidableEq

/-- CloudflareBypass.visit_page (lines 375 to 404) over an abstract
environment assigning each attempt index its outcome.  The loop runs
attempt = 0 up to max_retries - 1; a missing driver is recreated at the
start of an attempt; the first successful load wait returns True; a failed
load wait clears cookies and both client side storages when further
attempts remain; an exception quits and discards the driver when further
attempts remain.  The fuel argument counts the remaining loop iterations
and equals mr - attempt throughout.  The result is the returned boolean,
whether a driver is live at the end, and the records of the executed
attempts in order. -/
def visit_page_go (outcomes : Nat → AttemptOutcome) (mr : Nat) :
    Nat → Nat → Bool → Bool × Bool × List AttemptRecord
  | 0, _, driver => (false, driver, [])
  | fuel + 1, attempt, driver =>
    let created := !driver
    match outcomes attempt with
    | .success => (true, true, [⟨created, .success, false, false⟩])
    | .loadFail =>
      if attempt < mr - 1 then
        let r := visit_page_go outcomes mr fuel (attempt + 1) true
        (r.1, r.2.1, ⟨created, .loadFail, true, false⟩ :: r.2.2)
      else
        (false, true, [⟨created, .loadFail, false, false⟩])
    | .exc =>
      if attempt < mr - 1 then
        let r := visit_page_go outcomes mr fuel (attempt + 1) false
        (r.1, r.2.1, ⟨created, .exc, false, true⟩ :: r.2.2)
      else
        (false, true, [⟨created, .exc, false, false⟩])

/-- CloudflareBypass.visit_page started at attempt zero with the given
initial driver liveness. -/
def visit_page (outcomes : Nat → AttemptOutcome) (mr : Nat) (d0 : Bool) :
    Bool × Bool × List AttemptRecord :=
  visit_page_go outcomes mr mr 0 d0

/-- Loop invariant of visit_page: at most fuel further attempts execute;
the result is True exactly when a remaining attempt index has a successful
outcome; with positive fuel at least one attempt executes; the first
executed attempt creates the driver exactly when none is live; each record
matches its attempt outcome, clears storage exactly on a failed load with
attempts remaining, tears down exactly on an exception with attempts
remaining; and an attempt after a teardown recreates the driver. -/
theorem visit_page_go_spec (outcomes : Nat → AttemptOutcome) (mr : Nat) :
    ∀ (fuel attempt : Nat) (driver : Bool), attempt + fuel = mr →
      (visit_page_go outcomes mr fuel attempt driver).2.2.length ≤ fuel ∧
      ((visit_page_go outcomes mr fuel attempt driver).1 = true ↔
        ∃ i, attempt ≤ i ∧ i < mr ∧ outcomes i = AttemptOutcome.success) ∧
      (0 < fuel → 0 < (visit_page_go outcomes mr fuel attempt driver).2.2.length) ∧
      (∀ hh : 0 < (visit_page_go outcomes mr fuel attempt driver).2.2.length,
        ((visit_page_go outcomes mr fuel attempt driver).2.2.get
          ⟨0, hh⟩).createdDriver = !driver) ∧
      (∀ (j : Nat) (hj : j < (visit_page_go outcomes mr fuel attempt driver).2.2.length),
        ((visit_page_go outcomes mr fuel attempt driver).2.2.get ⟨j, hj⟩).outcome =
            outcomes (attempt + j) ∧
        ((visit_page_go outcomes mr fuel attempt driver).2.2.get
            ⟨j, hj⟩).clearedStorage =
          (decide (outcomes (attempt + j) = AttemptOutcome.loadFail) &&
            decide (attempt + j < mr - 1)) ∧
        ((visit_page_go outcomes mr fuel attempt driver).2.2.get ⟨j, hj⟩).toreDown =
          (decide (outcomes (attempt + j) = AttemptOutcome.exc) &&
            decide (attempt + j < mr - 1))) ∧
      (∀ (j : Nat)
        (hj : j < (visit_page_go outcomes mr fuel attempt driver).2.2.length)
        (hj2 : j + 1 < (visit_page_go outcomes mr fuel attempt driver).2.2.length),
        ((visit_page_go outcomes mr fuel attempt driver).2.2.get ⟨j, hj⟩).toreDown =
            true →
          ((visit_page_go outcomes mr fuel attempt driver).2.2.get
            ⟨j + 1, hj2⟩).createdDriver = true) := by
  intro fuel
  induction fuel with
  | zero =>
    intro attempt driver hsum
    refine ⟨by simp [visit_page_go], ?_, by omega, ?_, ?_, ?_⟩
    · simp only [visit_page_go]
      constructor
      · intro hcon
        simp at hcon
      · rintro ⟨i, h1, h2, _⟩
        omega
    · intro hh
      simp [visit_page_go] at hh
    · intro j hj
      simp [visit_page_go] at hj
    · intro j hj
      simp [visit_page_go] at hj
  | succ fuel ih =>
    intro attempt driver hsum
    have hattempt : attempt < mr := by omega
    rcases ho : outcomes attempt with _ | _ | _
    · -- success
      have hr : visit_page_go outcomes mr (fuel + 1) attempt driver =
          (true, true, [⟨!driver, AttemptOutcome.success, false, false⟩]) := by
        simp [visit_page_go, ho]
      rw [hr]
      refine ⟨by simp, ?_, by simp, by intro hh; rfl, ?_, ?_⟩
      · simp only [true_iff]
        exact ⟨attempt, le_rfl, hattempt, ho⟩
      · intro j hj
        simp only [List.length_singleton] at hj
        have hj0 : j = 0 := by omega
        subst hj0
        simp [ho]
      · intro j hj hj2
        simp only [List.length_singleton] at hj2
        omega
    · -- loadFail
      by_cases hrem : attempt < mr - 1
      · have hr : visit_page_go outcomes mr (fuel + 1) attempt driver =
            ((visit_page_go outcomes mr fuel (attempt + 1) true).1,
             (visit_page_go outcomes mr fuel (attempt + 1) true).2.1,
             ⟨!driver, AttemptOutcome.loadFail, true, false⟩ ::
               (visit_page_go outcomes mr fuel (attempt + 1) true).2.2) := by
          simp [visit_page_go, ho, hrem]
        obtain ⟨i1, i2, i3, i4, i5, i6⟩ := ih (attempt + 1) true (by omega)
        rw [hr]
        refine ⟨?_, ?_, by simp, by intro hh; rfl, ?_, ?_⟩
        · simp only [List.length_cons]
          omega
        · rw [i2]
          constructor
          · rintro ⟨i, h1, h2, h3⟩
            exact ⟨i, by omega, h2, h3⟩
          · rintro ⟨i, h1, h2, h3⟩
            refine ⟨i, ?_, h2, h3⟩
            rcases Nat.eq_or_lt_of_le h1 with rfl | hlt
            · rw [ho] at h3
              cases h3
            · omega
        · intro j hj
          cases j with
          | zero =>
            refine ⟨by simpa using ho.symm, ?_, ?_⟩
            · show true = _
              rw [Nat.add_zero, ho]
              simp [hrem]
            · show false = _
              rw [Nat.add_zero, ho]
              simp
          | succ j =>
            simp only [List.length_cons] at hj
            have hj' : j < (visit_page_go outcomes mr fuel (attempt + 1) true).2.2.length := by
              omega
            have harith : attempt + (j + 1) = attempt + 1 + j := by omega
            rw [harith]
            exact i5 j hj'
        · intro j hj hj2
          cases j with
          | zero =>
            intro hcon
            simp at hcon
          | succ j =>
            simp only [List.length_cons] at hj hj2
            exact i6 j (by omega) (by omega)
      · have hr : visit_page_go outcomes mr (fuel + 1) attempt driver =
            (false, true, [⟨!driver, AttemptOutcome.loadFail, false, false⟩]) := by
          simp [visit_page_go, ho, hrem]
        rw [hr]
        refine ⟨by simp, ?_, by simp, by intro hh; rfl, ?_, ?_⟩
        · simp only [Bool.false_eq_true, false_iff]
          rintro ⟨i, h1, h2, h3⟩
          have hieq : i = attempt := by omega
          subst hieq
          rw [ho] at h3
          cases h3
        · intro j hj
          simp only [List.length_singleton] at hj
          have hj0 : j = 0 := by omega
          subst hj0
          refine ⟨by simpa using ho.symm, ?_, ?_⟩
          · show false = _
            rw [Nat.add_zero, ho]
            simp [hrem]
          · show false = _
            rw [Nat.add_zero, ho]
            simp
        · intro j hj hj2
          simp only [List.length_singleton] at hj2
          omega
    · -- exc
      by_cases hrem : attempt < mr - 1
      · have hr : visit_page_go outcomes mr (fuel + 1) attempt driver =
            ((visit_page_go outcomes mr fuel (attempt + 1) false).1,
             (visit_page_go outcomes mr fuel (attempt + 1) false).2.1,
             ⟨!driver, AttemptOutcome.exc, false, true⟩ ::
               (visit_page_go outcomes mr fuel (attempt + 1) false).2.2) := by
          simp [visit_page_go, ho, hrem]
        obtain ⟨i1, i2, i3, i4, i5, i6⟩ := ih (attempt + 1) false (by omega)
        rw [hr]
        refine ⟨?_, ?_, by simp, by intro hh; rfl, ?_, ?_⟩
        · simp only [List.length_cons]
          omega
        · rw [i2]
          constructor
          · rintro ⟨i, h1, h2, h3⟩
            exact ⟨i, by omega, h2, h3⟩
          · rintro ⟨i, h1, h2, h3⟩
            refine ⟨i, ?_, h2, h3⟩
            rcases Nat.eq_or_lt_of_le h1 with rfl | hlt
            · rw [ho] at h3
              cases h3
            · omega
        · intro j hj
          cases j with
          | zero =>
            refine ⟨by simpa using ho.symm, ?_, ?_⟩
            · show false = _
              rw [Nat.add_zero, ho]
              simp
            · show true = _
              rw [Nat.add_zero, ho]
              simp [hrem]
          | succ j =>
            simp only [List.length_cons] at hj
            have hj' : j < (visit_page_go outcomes mr fuel (attempt + 1) false).2.2.length := by
              omega
            have harith : attempt + (j + 1) = attempt + 1 + j := by omega
            rw [harith]
            exact i5 j hj'
        · intro j hj hj2
          cases j with
          | zero =>
            intro _
            simp only [List.length_cons] at hj2
            have hh0 : 0 < (visit_page_go outcomes mr fuel (attempt + 1) false).2.2.length := by
              omega
            have := i4 hh0
            simpa using this
          | succ j =>
            simp only [List.length_cons] at hj hj2
            exact i6 j (by omega) (by omega)
      · have hr : visit_page_go outcomes mr (fuel + 1) attempt driver =
            (false, true, [⟨!driver, AttemptOutcome.exc, false, false⟩]) := by
          simp [visit_page_go, ho, hrem]
        rw [hr]
        refine ⟨by simp, ?_, by simp, by intro hh; rfl, ?_, ?_⟩
        · simp only [Bool.false_eq_true, false_iff]
          rintro ⟨i, h1, h2, h3⟩
          have hieq : i = attempt := by omega
          subst hieq
          rw [ho] at h3
          cases h3
        · intro j hj
          simp only [List.length_singleton] at hj
          have hj0 : j = 0 := by omega
          subst hj0
          refine ⟨by simpa using ho.symm, ?_, ?_⟩
          · show false = _
            rw [Nat.add_zero, ho]
            simp
          · show false = _
            rw [Nat.add_zero, ho]
            simp [hrem]
        · intro j hj hj2
          simp only [List.length_singleton] at hj2
          omega

/-- C7: visit_page executes at most max_retries navigation attempts and
returns False exactly when no executed attempt succeeds; an attempt that
fails its load wait clears cookies, localStorage and sessionStorage
exactly when attempts remain; an attempt that raises an exception tears
the browser session down exactly when attempts remain; and the attempt
following a teardown recreates the driver. -/
theorem c7_visit_page_retry_protocol (outcomes : Nat → AttemptOutcome)
    (mr : Nat) (d0 : Bool) :
    (visit_page outcomes mr d0).2.2.length ≤ mr ∧
    ((visit_page outcomes mr d0).1 = false ↔
      ∀ i < mr, outcomes i ≠ AttemptOutcome.success) ∧
    (∀ (j : Nat) (hj : j < (visit_page outcomes mr d0).2.2.length),
      ((visit_page outcomes mr d0).2.2.get ⟨j, hj⟩).outcome = outcomes j ∧
      ((visit_page outcomes mr d0).2.2.get ⟨j, hj⟩).clearedStorage =
        (decide (outcomes j = AttemptOutcome.loadFail) &&
          decide (j < mr - 1)) ∧
      ((visit_page outcomes mr d0).2.2.get ⟨j, hj⟩).toreDown =
        (decide (outcomes j = AttemptOutcome.exc) && decide (j < mr - 1))) ∧
    (∀ (j : Nat) (hj : j < (visit_page outcomes mr d0).2.2.length)
      (hj2 : j + 1 < (visit_page outcomes mr d0).2.2.length),
      ((visit_page outcomes mr d0).2.2.get ⟨j, hj⟩).toreDown = true →
        ((visit_page outcomes mr d0).2.2.get ⟨j + 1, hj2⟩).createdDriver =
          true) := by
  obtain ⟨i1, i2, _, _, i5, i6⟩ :=
    visit_page_go_spec outcomes mr mr 0 d0 (by omega)
  refine ⟨i1, ?_, ?_, i6⟩
  · constructor
    · intro hfalse i hi hsucc
      have htrue : (visit_page outcomes mr d0).1 = true :=
        i2.mpr ⟨i, Nat.zero_le i, hi, hsucc⟩
      rw [htrue] at hfalse
      cases hfalse
    · intro hall
      cases hv : (visit_page outcomes mr d0).1 with
      | false => rfl
      | true =>
        rcases i2.mp hv with ⟨i, _, h2, h3⟩
        exact absurd h3 (hall i h2)
  · intro j hj
    simpa using i5 j hj

/-- Witness for C7 at the environment where both of two attempts fail
their load wait and no driver is live initially. -/
theorem c7_visit_page_retry_protocol_witness :
    (visit_page (fun _ => AttemptOutcome.loadFail) 2 false).2.2.length ≤ 2 ∧
    ((visit_page (fun _ => AttemptOutcome.loadFail) 2 false).1 = false ↔
      ∀ i < 2, (fun _ => AttemptOutcome.loadFail) i ≠ AttemptOutcome.success) ∧
    (∀ (j : Nat)
      (hj : j < (visit_page (fun _ => AttemptOutcome.loadFail) 2 false).2.2.length),
      ((visit_page (fun _ => AttemptOutcome.loadFail) 2 false).2.2.get
          ⟨j, hj⟩).outcome = (fun _ => AttemptOutcome.loadFail) j ∧
      ((visit_page (fun _ => AttemptOutcome.loadFail) 2 false).2.2.get
          ⟨j, hj⟩).clearedStorage =
        (decide ((fun _ => AttemptOutcome.loadFail) j = AttemptOutcome.loadFail) &&
          decide (j < 2 - 1)) ∧
      ((visit_page (fun _ => AttemptOutcome.loadFail) 2 false).2.2.get
          ⟨j, hj⟩).toreDown =
        (decide ((fun _ => AttemptOutcome.loadFail) j = AttemptOutcome.exc) &&
          decide (j < 2 - 1))) ∧
    (∀ (j : Nat)
      (hj : j < (visit_page (fun _ => AttemptOutcome.loadFail) 2 false).2.2.length)
      (hj2 : j + 1 < (visit_page (fun _ => AttemptOutcome.loadFail) 2 false).2.2.length),
      ((visit_page (fun _ => AttemptOutcome.loadFail) 2 false).2.2.get
          ⟨j, hj⟩).toreDown = true →
        ((visit_page (fun _ => AttemptOutcome.loadFail) 2 false).2.2.get
          ⟨j + 1, hj2⟩).createdDriver = true) :=
  c7_visit_page_retry_protocol (fun _ => AttemptOutcome.loadFail) 2 false

end BookToki
